import Mathlib

/-!
Verification of the pruned block dispatcher (`chain/pruned_block_dispatcher.go`
of `tinhnguyenhn/colxwallet`).

The dispatcher lets a wallet fetch blocks its pruned backend no longer stores,
by connecting to the backend's full-node peers.  We give a shallow embedding of
its pure data manipulation:

* `Pending` models the `blocksQueried` map (`map[chainhash.Hash][]chan *wire.MsgBlock`),
  as an association list with the key set evolving exactly as the Go map does.
* `newRequestGo` is the loop body of `newRequest` (batching of inventory
  requests, deduplication against in-flight hashes, registration of the
  caller's delivery channel).
* `handleResp` is the response validator, including the banning path; the
  external `blockchain.CheckBlockSanity` (a dependency from the colxd
  repository, not part of this repository's sources) is abstracted as a
  boolean predicate `sanity : Block → Bool` on received blocks.
* `filterPeers` mirrors the service-flag filtering including Go's
  `hex.DecodeString` error behaviour and the out-of-bounds panic of
  `binary.BigEndian.Uint64` on short inputs.
* `connectToPeersLoop` / `connectToPeersFull` model a connection pass and
  `PoolReachable` the states reachable by the dispatcher's long-lived loop.

Channel effects of the fan-out goroutine in `handleResp` are reified as a list
of `ChanEvent`s (the goroutine performs `blockChan <- block` sends only).
-/

/-- Block hashes (`chainhash.Hash`) are abstracted as natural numbers; the
claims under study never depend on the 32-byte representation. -/
abbrev Hash := Nat

/-- A caller delivery channel (`chan *wire.MsgBlock`) is identified by a
numeric id; `newRequest` is given the id of the freshly allocated channel. -/
abbrev Chan := Nat

/-- A peer network address (`peer.Addr()` / `GetPeerInfoResult.Addr`). -/
abbrev Addr := String

/-- The `blocksQueried` field: block hash to the ordered list of delivery
channels of the callers waiting for that block.  Association list with
distinct keys (keys are only inserted when absent, mirroring the Go map). -/
abbrev Pending := List (Hash × List Chan)

/-- Map lookup `d.blocksQueried[h]` (first matching key). -/
def lookupPending : Pending → Hash → Option (List Chan)
  | [], _ => none
  | (k, cs) :: rest, h => if k = h then some cs else lookupPending rest h

/-- The `_, ok := d.blocksQueried[*block]` membership test. -/
def hasKey (p : Pending) (h : Hash) : Bool :=
  (lookupPending p h).isSome

/-- The update `d.blocksQueried[*block] = append(d.blocksQueried[*block], blockChan)`:
append the channel to the existing entry, or insert a fresh singleton entry. -/
def appendChan : Pending → Hash → Chan → Pending
  | [], h, c => [(h, [c])]
  | (k, cs) :: rest, h, c =>
    if k = h then (k, cs ++ [c]) :: rest else (k, cs) :: appendChan rest h c

/-- The deletion `delete(d.blocksQueried, blockHash)`. -/
def erasePending (p : Pending) (h : Hash) : Pending :=
  p.filter (fun kv => kv.1 != h)

/-- The channel list registered for a hash (empty when the hash is absent). -/
def chansOf (p : Pending) (h : Hash) : List Chan :=
  (lookupPending p h).getD []

/-- A received block message (`wire.MsgBlock`); `hash` is the value of
`block.BlockHash()` computed from its header. -/
structure Block where
  hash : Hash
deriving DecidableEq, Repr

/-- The wire messages relevant to `handleResp`: block replies, getdata
requests (their inventory list, always block-typed here), and anything else. -/
inductive Message where
  | blockMsg (b : Block)
  | getDataMsg (invs : List Hash)
  | otherMsg (tag : Nat)
deriving DecidableEq, Repr

/-- The in-memory handle of a connected peer.  Only the fact that
`Disconnect()` has been invoked on it is relevant to the claims. -/
structure Peer where
  disconnected : Bool
deriving DecidableEq, Repr

/-- The mutable state of a `PrunedBlockDispatcher`: `blocksQueried`,
`currentPeers` and `bannedPeers`. -/
structure DState where
  blocksQueried : Pending
  currentPeers : List (Addr × Peer)
  bannedPeers : List Addr
deriving DecidableEq, Repr

/-- The `query.Progress` result of a response handler. -/
structure Progress where
  progressed : Bool
  finished : Bool
deriving DecidableEq, Repr

/-- A reified effect on a delivery channel: the fan-out goroutine spawned by
`handleResp` performs `blockChan <- block` sends; a `closeEv` would be a
`close(blockChan)` (the source never performs one on a delivery channel). -/
inductive ChanEvent where
  | send (c : Chan) (b : Block)
  | closeEv (c : Chan)
deriving DecidableEq, Repr

/-- Whether a channel event is a send. -/
def ChanEvent.isSend : ChanEvent → Bool
  | .send _ _ => true
  | .closeEv _ => false

/-- The initial dispatcher state built by `NewPrunedBlockDispatcher`:
all three maps empty. -/
def initDState : DState :=
  { blocksQueried := [], currentPeers := [], bannedPeers := [] }

/-- `banPeer`: record the peer in `bannedPeers` (Go map set, idempotent) and,
if it is currently connected, call `Disconnect()` on its handle.  Note the
handle is NOT removed from `currentPeers` here; removal happens later in the
`signalUponDisconnect` goroutine, modelled by `disconnectCleanup`. -/
def banPeer (st : DState) (p : Addr) : DState :=
  { st with
    bannedPeers := if p ∈ st.bannedPeers then st.bannedPeers else st.bannedPeers ++ [p],
    currentPeers := st.currentPeers.map
      (fun ap => if ap.1 = p then (ap.1, ⟨true⟩) else ap) }

/-- The cleanup installed by `signalUponDisconnect`: once the peer's
disconnect fires, `delete(d.currentPeers, peer.Addr())` runs (asynchronously
with respect to `banPeer`). -/
def disconnectCleanup (st : DState) (p : Addr) : DState :=
  { st with currentPeers := st.currentPeers.filter (fun ap => ap.1 != p) }

/-- The response handler `handleResp(req, resp, peer)`.  `sanity` abstracts
`blockchain.CheckBlockSanity(btcutil.NewBlock(block), PowLimit, timeSource)`
(external colxd code): `sanity b = true` means validation succeeded.  The
returned triple is the `query.Progress`, the dispatcher state after the
handler returns, and the channel events performed by the spawned fan-out
goroutine (one send per registered delivery channel, in list order). -/
def handleResp (sanity : Block → Bool) (st : DState) (req resp : Message)
    (peer : Addr) : Progress × DState × List ChanEvent :=
  match resp with
  | .blockMsg b =>
    match req with
    | .getDataMsg invs =>
      match lookupPending st.blocksQueried b.hash with
      | none => (⟨false, false⟩, st, [])
      | some blockChans =>
        if sanity b then
          let pending' := erasePending st.blocksQueried b.hash
          let fin := invs.all (fun h => (lookupPending pending' h).isNone)
          (⟨true, fin⟩, { st with blocksQueried := pending' },
            blockChans.map (fun c => ChanEvent.send c b))
        else
          (⟨false, false⟩, banPeer st peer, [])
    | _ => (⟨false, false⟩, st, [])
  | _ => (⟨false, false⟩, st, [])

/-- The protocol limit `wire.MaxInvPerMsg` (50000): the maximum number of
inventory vectors allowed in a single message; `MsgGetData.AddInvVect`
errors when it would be exceeded. -/
def maxInvPerMsg : Nat := 50000

/-- The loop body of `newRequest`.  Arguments after the block list are the
loop state: the `blocksQueried` map, the inventory list of the current
`wire.MsgGetData` (`[]` plays the role of `getData == nil`), and the emitted
requests so far.  `max` is `cfg.MaxRequestInvs` (a Go `int`), `ch` the id of
the freshly allocated delivery channel.  Returns `none` when
`getData.AddInvVect` fails (its inventory list would exceed `MaxInvPerMsg`),
mirroring the `return nil, nil, err` of the source. -/
def newRequestGo (max : Int) (ch : Chan) :
    List Hash → Pending → List Hash → List (List Hash) →
    Option (List (List Hash) × Pending)
  | [], pending, _cur, reqs => some (reqs, pending)
  | b :: rest, pending, cur, reqs =>
    if hasKey pending b = false ∧ cur.length + 1 > maxInvPerMsg then
      none
    else
      let cur' := if hasKey pending b then cur else cur ++ [b]
      let pending' := appendChan pending b ch
      if (0 < cur'.length ∧ rest = []) ∨ ((cur'.length : Int) = max) then
        newRequestGo max ch rest pending' [] (reqs ++ [cur'])
      else
        newRequestGo max ch rest pending' cur' reqs

/-- `newRequest(blocks)`: run the batching loop over the requested hashes with
an empty current batch and no emitted requests.  Each emitted batch stands for
one `query.Request` wrapping a `wire.MsgGetData` (paired with `handleResp`). -/
def newRequest (max : Int) (pending : Pending) (blocks : List Hash)
    (ch : Chan) : Option (List (List Hash) × Pending) :=
  newRequestGo max ch blocks pending [] []

/-- Greedy chunking of a list into pieces of `m` elements (last piece possibly
shorter, no empty pieces).  Reference function used to describe the batches
emitted by `newRequestGo`. -/
def chunks (m : Nat) : List Hash → List (List Hash)
  | [] => []
  | b :: rest => (b :: rest.take (m - 1)) :: chunks m (rest.drop (m - 1))
termination_by l => l.length
decreasing_by
  simp only [List.length_cons, List.length_drop]
  omega

/-- The subsequence of the requested hashes that are fresh (not already in the
`blocksQueried` map) at the moment the loop of `newRequest` processes them;
the map grows along the way exactly as in the source, so a hash repeated
within one call is fresh at most once. -/
def freshBlocks (ch : Chan) (p : Pending) : List Hash → List Hash
  | [] => []
  | b :: rest =>
    if hasKey p b then freshBlocks ch p rest
    else b :: freshBlocks ch (appendChan p b ch) rest

/-- A candidate peer descriptor as returned by `GetPeers`
(`btcjson.GetPeerInfoResult`): its address and the hex-encoded service-flag
field, other metadata ignored. -/
structure PeerInfo where
  addr : Addr
  services : String
deriving DecidableEq, Repr

/-- One hex digit, as decoded by Go's `encoding/hex` (`fromHexChar`). -/
def hexDigit (c : Char) : Option Nat :=
  if '0' ≤ c ∧ c ≤ '9' then some (c.toNat - '0'.toNat)
  else if 'a' ≤ c ∧ c ≤ 'f' then some (c.toNat - 'a'.toNat + 10)
  else if 'A' ≤ c ∧ c ≤ 'F' then some (c.toNat - 'A'.toNat + 10)
  else none

/-- Go's `hex.DecodeString` on a character list: errors (`none`) on odd
length or on any non-hex character. -/
def hexDecodeList : List Char → Option (List Nat)
  | [] => some []
  | [_] => none
  | a :: b :: rest => do
    let hi ← hexDigit a
    let lo ← hexDigit b
    let t ← hexDecodeList rest
    pure ((hi * 16 + lo) :: t)

/-- Go's `hex.DecodeString` on a string. -/
def hexDecode (s : String) : Option (List Nat) :=
  hexDecodeList s.data

/-- `binary.BigEndian.Uint64` on a byte slice of length at least 8: big-endian
read of the first eight bytes. -/
def beUint64 (bs : List Nat) : Nat :=
  (bs.take 8).foldl (fun acc x => acc * 256 + x) 0

/-- `requiredServices = wire.SFNodeNetwork | wire.SFNodeWitness`
(bit 0 and bit 3). -/
def requiredServices : Nat := 1 ||| 8

/-- `prunedNodeService wire.ServiceFlag = 1 << 11`. -/
def prunedNodeService : Nat := 2 ^ 11

/-- Possible outcomes of `filterPeers`: a Go runtime panic (out-of-bounds
read in `binary.BigEndian.Uint64` when the decoded services are shorter than
8 bytes), an error return (`hex.DecodeString` failed), or the eligible list. -/
inductive FilterResult where
  | panicked
  | errored
  | ok (l : List PeerInfo)
deriving DecidableEq, Repr

/-- `filterPeers`: keep the candidates that advertise `requiredServices` and
do not advertise `prunedNodeService`; a hex-decoding error aborts the whole
call, a short decoded slice panics. -/
def filterPeers : List PeerInfo → FilterResult
  | [] => .ok []
  | p :: rest =>
    match hexDecode p.services with
    | none => .errored
    | some bs =>
      if bs.length < 8 then .panicked
      else
        let services := beUint64 bs
        if services &&& requiredServices ≠ requiredServices then
          filterPeers rest
        else if services &&& prunedNodeService = prunedNodeService then
          filterPeers rest
        else
          match filterPeers rest with
          | .ok l => .ok (p :: l)
          | r => r

/-- The fate of one connection attempt to a candidate, abstracting the
injected I/O: `newPeerOk` is `newQueryPeer` succeeding (its error aborts the
pass), `connectOk` is `Dial` plus the ready-handshake succeeding (failure
skips the candidate), `sendOk` is the send on `peersConnected` completing
rather than being aborted by shutdown. -/
structure ConnOutcome where
  newPeerOk : Bool
  connectOk : Bool
  sendOk : Bool
deriving DecidableEq, Repr

/-- Whether an address is a key of `currentPeers`. -/
def hasAddr (peers : List (Addr × Peer)) (a : Addr) : Bool :=
  (peers.map Prod.fst).contains a

/-- The candidate loop of `connectToPeers`: skip banned or already connected
candidates, abort the pass on a `newQueryPeer` error or on shutdown during
the `peersConnected` send, skip on dial/ready failure, otherwise record the
new peer and stop as soon as `len(currentPeers) == NumTargetPeers`. -/
def connectToPeersLoop (target : Int) :
    DState → List (PeerInfo × ConnOutcome) → DState
  | st, [] => st
  | st, (p, oc) :: rest =>
    if st.bannedPeers.contains p.addr || hasAddr st.currentPeers p.addr then
      connectToPeersLoop target st rest
    else if oc.newPeerOk = false then st
    else if oc.connectOk = false then connectToPeersLoop target st rest
    else if oc.sendOk = false then st
    else
      let st' := { st with currentPeers := st.currentPeers ++ [(p.addr, ⟨false⟩)] }
      if (st'.currentPeers.length : Int) = target then st'
      else connectToPeersLoop target st' rest

/-- A whole connection pass: `GetPeers` gave `peers`; filter them, shuffle
(`shuffle` stands for the `rand.Shuffle` permutation actually drawn), then run
the candidate loop with the per-candidate I/O outcomes.  `GetPeers` and filter
errors abort before any state change; a panic in `filterPeers` crashes. -/
inductive PassResult where
  | panicked
  | errored
  | ok (st : DState)
deriving DecidableEq, Repr

/-- See `PassResult`. -/
def connectToPeersFull (target : Int) (st : DState) (peers : List PeerInfo)
    (outcome : PeerInfo → ConnOutcome)
    (shuffle : List PeerInfo → List PeerInfo) : PassResult :=
  match filterPeers peers with
  | .panicked => .panicked
  | .errored => .errored
  | .ok eligible =>
    .ok (connectToPeersLoop target st
      ((shuffle eligible).map (fun p => (p, outcome p))))

/-- The dispatcher configuration fields validated by
`NewPrunedBlockDispatcher` (`NumTargetPeers` and `MaxRequestInvs` are Go
`int`s); the injected I/O collaborators (`Dial`, `GetPeers`, tickers, chain
parameters) carry no validated data and are abstracted elsewhere. -/
structure Config where
  numTargetPeers : Int
  maxRequestInvs : Int
deriving DecidableEq, Repr

/-- `NewPrunedBlockDispatcher(cfg)`: validate the configuration and build the
initial state (three empty maps).  The construction is pure: no dialing and
no `GetPeers` call happens here (those only run from `pollPeers`, spawned by
`Start`). -/
def NewPrunedBlockDispatcher (cfg : Config) : Except String DState :=
  if cfg.numTargetPeers < 1 then
    .error "config option NumTargetPeer must be >= 1"
  else if cfg.maxRequestInvs > (maxInvPerMsg : Int) then
    .error "config option MaxRequestInvs must be <= MaxInvPerMsg"
  else
    .ok initDState

/-- States of the dispatcher reachable from `NewPrunedBlockDispatcher`'s
initial state through the operations that touch the shared maps: connection
passes (run by `pollPeers` only when the connected count is below target —
the initial pass starts from the empty map), asynchronous disconnect
cleanups, bans, `newRequest` admissions and `handleResp` invocations. -/
inductive PoolReachable (target : Int) : DState → Prop
  | init : PoolReachable target initDState
  | pass (s : DState) (cands : List (PeerInfo × ConnOutcome)) :
      PoolReachable target s →
      (s.currentPeers.length : Int) < target →
      PoolReachable target (connectToPeersLoop target s cands)
  | disconnect (s : DState) (a : Addr) :
      PoolReachable target s →
      PoolReachable target (disconnectCleanup s a)
  | ban (s : DState) (a : Addr) :
      PoolReachable target s →
      PoolReachable target (banPeer s a)
  | query (s : DState) (max : Int) (blocks : List Hash) (ch : Chan)
      (reqs : List (List Hash)) (p' : Pending) :
      PoolReachable target s →
      newRequest max s.blocksQueried blocks ch = some (reqs, p') →
      PoolReachable target { s with blocksQueried := p' }
  | resp (s : DState) (sanity : Block → Bool) (req rsp : Message) (peer : Addr) :
      PoolReachable target s →
      PoolReachable target (handleResp sanity s req rsp peer).2.1

/-! ### Lemmas about the pending map -/

theorem hasKey_nil (h : Hash) : hasKey [] h = false := rfl

theorem hasKey_appendChan (p : Pending) (b : Hash) (c : Chan) (x : Hash) :
    hasKey (appendChan p b c) x = (decide (x = b) || hasKey p x) := by
  induction p with
  | nil =>
    simp only [appendChan, hasKey, lookupPending]
    by_cases hxb : x = b
    · subst hxb; simp
    · have : ¬ b = x := fun h => hxb h.symm
      simp [this, hxb]
  | cons kv rest ih =>
    obtain ⟨k, cs⟩ := kv
    simp only [appendChan]
    by_cases hkb : k = b
    · subst hkb
      by_cases hxk : k = x
      · subst hxk; simp [hasKey, lookupPending]
      · have hne : ¬ x = k := fun h => hxk h.symm
        simp [hasKey, lookupPending, hxk, hne]
    · simp only [if_neg hkb]
      by_cases hxk : k = x
      · subst hxk; simp [hasKey, lookupPending]
      · simp only [hasKey, lookupPending, if_neg hxk]
        exact ih

theorem lookupPending_isSome_of_hasKey {p : Pending} {h : Hash}
    (hk : hasKey p h = true) : lookupPending p h = some (chansOf p h) := by
  unfold hasKey at hk
  unfold chansOf
  cases hl : lookupPending p h with
  | none => rw [hl] at hk; simp at hk
  | some cs => simp

theorem lookupPending_erase_self (p : Pending) (h : Hash) :
    lookupPending (erasePending p h) h = none := by
  induction p with
  | nil => rfl
  | cons kv rest ih =>
    obtain ⟨k, cs⟩ := kv
    simp only [erasePending, List.filter] at ih ⊢
    by_cases hk : k = h
    · subst hk
      have hb : (k != k) = false := by simp
      rw [hb]
      exact ih
    · have hb : (k != h) = true := by simp [hk]
      rw [hb]
      simp only [lookupPending, if_neg hk]
      exact ih

theorem chansOf_appendChan_self (p : Pending) (h : Hash) (c : Chan) :
    chansOf (appendChan p h c) h = chansOf p h ++ [c] := by
  induction p with
  | nil => simp [appendChan, chansOf, lookupPending]
  | cons kv rest ih =>
    obtain ⟨k, cs⟩ := kv
    by_cases hk : k = h
    · subst hk; simp [appendChan, chansOf, lookupPending]
    · simp [appendChan, chansOf, lookupPending, hk] at *
      exact ih

theorem chansOf_appendChan_ne (p : Pending) (b : Hash) (c : Chan) (x : Hash)
    (hx : x ≠ b) : chansOf (appendChan p b c) x = chansOf p x := by
  induction p with
  | nil =>
    have : ¬ b = x := fun h => hx h.symm
    simp [appendChan, chansOf, lookupPending, this]
  | cons kv rest ih =>
    obtain ⟨k, cs⟩ := kv
    by_cases hkb : k = b
    · subst hkb
      have : ¬ k = x := fun h => hx (h.symm ▸ rfl)
      simp [appendChan, chansOf, lookupPending, this]
    · by_cases hkx : k = x
      · subst hkx; simp [appendChan, chansOf, lookupPending, hkb]
      · simp [appendChan, chansOf, lookupPending, hkb, hkx] at *
        exact ih

/-- Appending channels for a whole block list, as the loop of `newRequest`
does (`pending` evolves by one `appendChan` per processed hash). -/
def appendAll (ch : Chan) (p : Pending) (blocks : List Hash) : Pending :=
  blocks.foldl (fun q b => appendChan q b ch) p

theorem appendAll_nil (ch : Chan) (p : Pending) : appendAll ch p [] = p := rfl

theorem appendAll_cons (ch : Chan) (p : Pending) (b : Hash) (rest : List Hash) :
    appendAll ch p (b :: rest) = appendAll ch (appendChan p b ch) rest := rfl

theorem hasKey_appendAll (ch : Chan) (p : Pending) (l : List Hash) (x : Hash) :
    hasKey (appendAll ch p l) x = (hasKey p x || decide (x ∈ l)) := by
  induction l generalizing p with
  | nil => simp [appendAll]
  | cons b rest ih =>
    rw [appendAll_cons, ih, hasKey_appendChan]
    by_cases hxb : x = b
    · subst hxb; simp
    · simp [hxb]

theorem mem_chansOf_appendChan (p : Pending) (b : Hash) (c : Chan) (x : Hash)
    (y : Chan) (hy : y ∈ chansOf p x) : y ∈ chansOf (appendChan p b c) x := by
  by_cases hxb : x = b
  · subst hxb; rw [chansOf_appendChan_self]; exact List.mem_append_left _ hy
  · rwa [chansOf_appendChan_ne _ _ _ _ hxb]

theorem mem_chansOf_appendAll_of_mem (ch : Chan) (p : Pending) (l : List Hash)
    (x : Hash) (y : Chan) (hy : y ∈ chansOf p x) :
    y ∈ chansOf (appendAll ch p l) x := by
  induction l generalizing p with
  | nil => simpa [appendAll]
  | cons b rest ih =>
    rw [appendAll_cons]
    exact ih _ (mem_chansOf_appendChan _ _ _ _ _ hy)

theorem self_mem_chansOf_appendAll (ch : Chan) (p : Pending) (l : List Hash)
    (x : Hash) (hx : x ∈ l) : ch ∈ chansOf (appendAll ch p l) x := by
  induction l generalizing p with
  | nil => cases hx
  | cons b rest ih =>
    rw [appendAll_cons]
    rcases List.mem_cons.mp hx with hxb | hxr
    · subst hxb
      exact mem_chansOf_appendAll_of_mem _ _ _ _ _
        (by rw [chansOf_appendChan_self]; exact List.mem_append_right _ (by simp))
    · exact ih _ hxr

/-! ### Lemmas about chunking -/

theorem chunks_nil (m : Nat) : chunks m [] = [] := by
  simp [chunks]

theorem chunks_small {m : Nat} {l : List Hash} (h0 : 0 < l.length)
    (hle : l.length ≤ m) : chunks m l = [l] := by
  cases l with
  | nil => cases h0
  | cons b rest =>
    have h1 : rest.length ≤ m - 1 := by
      simp only [List.length_cons] at hle
      omega
    rw [chunks]
    rw [List.take_of_length_le h1, List.drop_eq_nil_of_le h1, chunks_nil]

theorem chunks_full {m : Nat} {l t : List Hash} (h0 : 0 < l.length)
    (hm : l.length = m) : chunks m (l ++ t) = l :: chunks m t := by
  cases l with
  | nil => cases h0
  | cons b rest =>
    have hr : rest.length = m - 1 := by
      simp only [List.length_cons] at hm
      omega
    rw [List.cons_append, chunks]
    congr 1
    · congr 1
      rw [List.take_append_eq_append_take, List.take_of_length_le (le_of_eq hr),
        hr, Nat.sub_self, List.take_zero, List.append_nil]
    · congr 1
      rw [List.drop_append_eq_append_drop, List.drop_eq_nil_of_le (le_of_eq hr),
        hr, Nat.sub_self, List.drop_zero, List.nil_append]

theorem chunks_length_aux {m : Nat} (hm : 0 < m) :
    ∀ (n : Nat) (l : List Hash), l.length ≤ n →
      (chunks m l).length = (l.length + m - 1) / m := by
  intro n
  induction n with
  | zero =>
    intro l hl
    have : l = [] := List.eq_nil_of_length_eq_zero (by omega)
    subst this
    rw [chunks_nil]
    simp only [List.length_nil, List.nil_append]
    rw [Nat.div_eq_of_lt (by omega)]
  | succ n ih =>
    intro l hl
    cases l with
    | nil =>
      rw [chunks_nil]
      simp only [List.length_nil]
      rw [Nat.div_eq_of_lt (by omega)]
    | cons b rest =>
      rw [chunks]
      simp only [List.length_cons] at hl ⊢
      have hdrop : (rest.drop (m - 1)).length = rest.length - (m - 1) := by
        simp
      have hle : (rest.drop (m - 1)).length ≤ n := by omega
      rw [ih _ hle, hdrop]
      rcases Nat.lt_or_ge rest.length (m - 1) with hc | hc
      · have h1 : rest.length - (m - 1) = 0 := by omega
        rw [h1]
        have h2 : (0 + m - 1) / m = 0 := Nat.div_eq_of_lt (by omega)
        have h3 : (rest.length + 1 + m - 1) / m = 1 := by
          have he : rest.length + 1 + m - 1 = rest.length + m := by omega
          rw [he, Nat.add_div_right _ hm, Nat.div_eq_of_lt (by omega)]
        rw [h2, h3]
      · have h1 : rest.length - (m - 1) + m - 1 = rest.length := by omega
        rw [h1]
        have h2 : rest.length + 1 + m - 1 = rest.length + m := by omega
        rw [h2, Nat.add_div_right _ hm]

theorem chunks_length {m : Nat} (hm : 0 < m) (l : List Hash) :
    (chunks m l).length = (l.length + m - 1) / m :=
  chunks_length_aux hm l.length l (le_refl _)

theorem chunks_sizes_aux {m : Nat} (hm : 0 < m) :
    ∀ (n : Nat) (l r : List Hash), l.length ≤ n → r ∈ chunks m l →
      0 < r.length ∧ r.length ≤ m := by
  intro n
  induction n with
  | zero =>
    intro l r hl hr
    have : l = [] := List.eq_nil_of_length_eq_zero (by omega)
    subst this
    rw [chunks_nil] at hr
    cases hr
  | succ n ih =>
    intro l r hl hr
    cases l with
    | nil => rw [chunks_nil] at hr; cases hr
    | cons b rest =>
      rw [chunks] at hr
      rcases List.mem_cons.mp hr with h1 | h1
      · subst h1
        refine ⟨by simp, ?_⟩
        have := List.length_take_le (m - 1) rest
        simp only [List.length_cons]
        omega
      · have hle : (rest.drop (m - 1)).length ≤ n := by
          simp only [List.length_cons] at hl
          simp
          omega
        exact ih _ _ hle h1

theorem chunks_sizes {m : Nat} (hm : 0 < m) {l r : List Hash}
    (hr : r ∈ chunks m l) : 0 < r.length ∧ r.length ≤ m :=
  chunks_sizes_aux hm l.length l r (le_refl _) hr

theorem chunks_flatten_aux (m : Nat) :
    ∀ (n : Nat) (l : List Hash), l.length ≤ n → (chunks m l).flatten = l := by
  intro n
  induction n with
  | zero =>
    intro l hl
    have : l = [] := List.eq_nil_of_length_eq_zero (by omega)
    subst this
    rw [chunks_nil]
    rfl
  | succ n ih =>
    intro l hl
    cases l with
    | nil => rw [chunks_nil]; rfl
    | cons b rest =>
      rw [chunks]
      have hle : (rest.drop (m - 1)).length ≤ n := by
        simp only [List.length_cons] at hl
        simp
        omega
      rw [List.flatten_cons, ih _ hle, List.cons_append, List.take_append_drop]

theorem chunks_flatten (m : Nat) (l : List Hash) : (chunks m l).flatten = l :=
  chunks_flatten_aux m l.length l (le_refl _)

/-! ### Lemmas about freshBlocks -/

theorem freshBlocks_congr (ch ch' : Chan) (l : List Hash) :
    ∀ (p q : Pending), (∀ x, hasKey p x = hasKey q x) →
      freshBlocks ch p l = freshBlocks ch' q l := by
  induction l with
  | nil => intro p q _; rfl
  | cons b rest ih =>
    intro p q hpq
    simp only [freshBlocks, hpq b]
    by_cases hqb : hasKey q b = true
    · rw [if_pos hqb, if_pos hqb]
      exact ih p q hpq
    · rw [if_neg hqb, if_neg hqb]
      congr 1
      refine ih _ _ (fun x => ?_)
      rw [hasKey_appendChan, hasKey_appendChan, hpq x]

theorem freshBlocks_key_stable (ch ch' : Chan) (l : List Hash) (p : Pending)
    (b : Hash) (hb : hasKey p b = true) :
    freshBlocks ch (appendChan p b ch') l = freshBlocks ch p l := by
  refine freshBlocks_congr ch ch l _ _ (fun x => ?_)
  rw [hasKey_appendChan]
  by_cases hxb : x = b
  · subst hxb; simp [hb]
  · simp [hxb]

theorem freshBlocks_sublist (ch : Chan) (p : Pending) (l : List Hash) :
    (freshBlocks ch p l).Sublist l := by
  induction l generalizing p with
  | nil => exact List.Sublist.refl _
  | cons b rest ih =>
    simp only [freshBlocks]
    by_cases hb : hasKey p b = true
    · rw [if_pos hb]
      exact (ih p).trans (List.sublist_cons_self b rest)
    · rw [if_neg hb]
      exact (ih _).cons₂ b

theorem count_freshBlocks_of_hasKey (ch : Chan) (l : List Hash) :
    ∀ (p : Pending) (h : Hash), hasKey p h = true →
      (freshBlocks ch p l).count h = 0 := by
  induction l with
  | nil => intro p h _; rfl
  | cons b rest ih =>
    intro p h hph
    simp only [freshBlocks]
    by_cases hb : hasKey p b = true
    · rw [if_pos hb]
      exact ih p h hph
    · rw [if_neg hb]
      have hhb : ¬ b = h := by
        intro he
        subst he
        rw [hph] at hb
        exact hb rfl
      rw [List.count_cons]
      have hbe : (b == h) = false := by simp [hhb]
      rw [hbe]
      simp only [Bool.false_eq_true, if_false, Nat.add_zero]
      refine ih _ h ?_
      rw [hasKey_appendChan, hph, Bool.or_true]

theorem count_freshBlocks_of_new (ch : Chan) (l : List Hash) :
    ∀ (p : Pending) (h : Hash), hasKey p h = false → h ∈ l →
      (freshBlocks ch p l).count h = 1 := by
  induction l with
  | nil => intro p h _ hm; cases hm
  | cons b rest ih =>
    intro p h hph hm
    simp only [freshBlocks]
    by_cases hb : hasKey p b = true
    · rw [if_pos hb]
      have hhb : h ≠ b := by
        intro he
        subst he
        rw [hph] at hb
        cases hb
      rcases List.mem_cons.mp hm with he | hr
      · exact absurd he hhb
      · exact ih p h hph hr
    · rw [if_neg hb]
      rw [List.count_cons]
      by_cases hhb : h = b
      · subst hhb
        have hbe : (h == h) = true := by simp
        rw [hbe]
        simp only [if_true]
        have h0 : (freshBlocks ch (appendChan p h ch) rest).count h = 0 := by
          refine count_freshBlocks_of_hasKey ch rest _ h ?_
          rw [hasKey_appendChan]
          simp
        omega
      · have hbe : (b == h) = false := by simp [Ne.symm hhb]
        rw [hbe]
        simp only [Bool.false_eq_true, if_false, Nat.add_zero]
        rcases List.mem_cons.mp hm with he | hr
        · exact absurd he hhb
        · refine ih _ h ?_ hr
          rw [hasKey_appendChan, hph]
          simp [hhb]

/-! ### The batching loop computes the chunking of the fresh hashes -/

theorem newRequestGo_eq (max : Int) (ch : Chan) (hm : 1 ≤ max)
    (hM : max ≤ (maxInvPerMsg : Int)) :
    ∀ (blocks : List Hash) (pending : Pending) (cur : List Hash)
      (reqs : List (List Hash)), cur.length < max.toNat →
      newRequestGo max ch blocks pending cur reqs =
        some (reqs ++ (if blocks.isEmpty then []
                       else chunks max.toNat (cur ++ freshBlocks ch pending blocks)),
              appendAll ch pending blocks) := by
  intro blocks
  induction blocks with
  | nil =>
    intro pending cur reqs hcur
    simp [newRequestGo, appendAll]
  | cons b rest ih =>
    intro pending cur reqs hcur
    have h50 : maxInvPerMsg = 50000 := rfl
    have hM' : max ≤ 50000 := by
      rw [h50] at hM
      exact_mod_cast hM
    have hguard : ¬ (hasKey pending b = false ∧ cur.length + 1 > maxInvPerMsg) := by
      rintro ⟨-, hbig⟩
      rw [h50] at hbig
      omega
    simp only [newRequestGo]
    rw [if_neg hguard]
    simp only [List.isEmpty_cons, Bool.false_eq_true, if_false]
    rw [show appendAll ch pending (b :: rest) = appendAll ch (appendChan pending b ch) rest from rfl]
    by_cases hkb : hasKey pending b = true
    · -- duplicate hash: no inventory entry added
      rw [if_pos hkb]
      rw [show freshBlocks ch pending (b :: rest) = if hasKey pending b then freshBlocks ch pending rest else b :: freshBlocks ch (appendChan pending b ch) rest from rfl]
      rw [if_pos hkb]
      have hfresh : freshBlocks ch pending rest
          = freshBlocks ch (appendChan pending b ch) rest :=
        (freshBlocks_key_stable ch ch rest pending b hkb).symm
      by_cases hrest : rest = []
      · subst hrest
        by_cases hcur0 : 0 < cur.length
        · rw [if_pos (Or.inl ⟨hcur0, rfl⟩)]
          simp only [newRequestGo]
          rw [show freshBlocks ch pending [] = [] from rfl, List.append_nil]
          rw [chunks_small hcur0 (by omega)]
          rfl
        · have hcurnil : cur = [] := List.eq_nil_of_length_eq_zero (by omega)
          subst hcurnil
          rw [if_neg]
          · simp only [newRequestGo]
            rw [show freshBlocks ch pending [] = [] from rfl]
            simp [chunks_nil, appendAll_nil]
          · rintro (⟨h0, -⟩ | hlen)
            · exact absurd h0 (by simp)
            · simp only [List.length_nil, Int.natCast_zero] at hlen
              omega
      · rw [if_neg]
        · rw [ih _ cur reqs hcur]
          have hre : rest.isEmpty = false := by
            cases rest
            · exact absurd rfl hrest
            · rfl
          rw [hre, hfresh]
          simp only [Bool.false_eq_true, if_false]
        · rintro (⟨-, h0⟩ | hlen)
          · exact hrest h0
          · omega
    · -- fresh hash: added to the current inventory batch
      rw [if_neg hkb]
      have hkb' : hasKey pending b = false := by
        cases hh : hasKey pending b
        · rfl
        · exact absurd hh hkb
      rw [show freshBlocks ch pending (b :: rest) = if hasKey pending b then freshBlocks ch pending rest else b :: freshBlocks ch (appendChan pending b ch) rest from rfl]
      rw [if_neg hkb]
      have hlen1 : (cur ++ [b]).length = cur.length + 1 := by simp
      have hassoc : cur ++ b :: freshBlocks ch (appendChan pending b ch) rest
          = (cur ++ [b]) ++ freshBlocks ch (appendChan pending b ch) rest := by
        simp
      rw [hassoc]
      by_cases hfull : ((cur ++ [b]).length : Int) = max
      · rw [if_pos (Or.inr hfull)]
        have hfulln : (cur ++ [b]).length = max.toNat := by
          rw [hlen1] at hfull ⊢
          omega
        rw [ih _ [] (reqs ++ [cur ++ [b]]) (by simp; omega)]
        rw [chunks_full (by simp) hfulln]
        cases rest with
        | nil =>
          rw [show freshBlocks ch (appendChan pending b ch) [] = [] from rfl, chunks_nil]
          simp
        | cons r rs =>
          simp only [List.isEmpty_cons, Bool.false_eq_true, if_false, List.nil_append]
          simp
      · by_cases hrest : rest = []
        · subst hrest
          rw [if_pos (Or.inl ⟨by simp, rfl⟩)]
          simp only [newRequestGo]
          rw [show freshBlocks ch (appendChan pending b ch) [] = [] from rfl, List.append_nil]
          rw [chunks_small (by simp) (by rw [hlen1]; omega)]
          rfl
        · rw [if_neg]
          · have hlt : (cur ++ [b]).length < max.toNat := by
              rw [hlen1] at hfull ⊢
              omega
            rw [ih _ (cur ++ [b]) reqs hlt]
            have hre : rest.isEmpty = false := by
              cases rest
              · exact absurd rfl hrest
              · rfl
            rw [hre]
            simp only [Bool.false_eq_true, if_false]
          · rintro (⟨-, h0⟩ | hlen)
            · exact hrest h0
            · exact hfull hlen

theorem newRequest_eq (max : Int) (ch : Chan) (pending : Pending)
    (blocks : List Hash) (hm : 1 ≤ max) (hM : max ≤ (maxInvPerMsg : Int)) :
    newRequest max pending blocks ch =
      some (chunks max.toNat (freshBlocks ch pending blocks),
        appendAll ch pending blocks) := by
  unfold newRequest
  rw [newRequestGo_eq max ch hm hM blocks pending [] [] (by simpa using by omega)]
  cases blocks with
  | nil =>
    rw [show freshBlocks ch pending [] = [] from rfl, chunks_nil]
    rfl
  | cons b rest =>
    simp only [List.isEmpty_cons, Bool.false_eq_true, if_false, List.nil_append]

/-! ### Lemmas about service-flag filtering -/

theorem testBit_nine (i : Nat) : Nat.testBit 9 i = (decide (i = 0) || decide (i = 3)) := by
  match i with
  | 0 => decide
  | 1 => decide
  | 2 => decide
  | 3 => decide
  | (j + 4) =>
    have h1 : Nat.testBit 9 (j + 4) = false :=
      Nat.testBit_lt_two_pow (by
        calc (9 : Nat) < 2 ^ 4 := by omega
        _ ≤ 2 ^ (j + 4) := Nat.pow_le_pow_right (by omega) (by omega))
    rw [h1]
    simp

theorem and_nine_eq (s : Nat) :
    (s &&& 9 = 9) ↔ (s.testBit 0 = true ∧ s.testBit 3 = true) := by
  constructor
  · intro h
    constructor
    · have := congrArg (fun x => Nat.testBit x 0) h
      simp only [Nat.testBit_and, testBit_nine] at this
      simpa using this
    · have := congrArg (fun x => Nat.testBit x 3) h
      simp only [Nat.testBit_and, testBit_nine] at this
      simpa using this
  · rintro ⟨h0, h3⟩
    refine Nat.eq_of_testBit_eq (fun i => ?_)
    rw [Nat.testBit_and, testBit_nine]
    by_cases hi0 : i = 0
    · subst hi0; simp [h0]
    · by_cases hi3 : i = 3
      · subst hi3; simp [h3]
      · simp [hi0, hi3]

theorem and_pruned_eq (s : Nat) :
    (s &&& 2 ^ 11 = 2 ^ 11) ↔ s.testBit 11 = true := by
  constructor
  · intro h
    have := congrArg (fun x => Nat.testBit x 11) h
    simp only [Nat.testBit_and, Nat.testBit_two_pow_self, Bool.and_true] at this
    exact this
  · intro h
    refine Nat.eq_of_testBit_eq (fun i => ?_)
    rw [Nat.testBit_and]
    by_cases hi : 11 = i
    · subst hi; simp [h]
    · rw [Nat.testBit_two_pow_of_ne hi]
      simp

/-- The eligibility predicate of the specification, phrased on the decoded
64-bit service flags: NODE_NETWORK (bit 0) and NODE_WITNESS (bit 3) set,
NODE_PRUNED (bit 11) clear. -/
def eligibleFlags (s : Nat) : Bool :=
  s.testBit 0 && s.testBit 3 && !(s.testBit 11)

/-- The decoded service flags of a peer descriptor (meaningful when its
`services` field is well-formed hex of at least 8 bytes). -/
def decodeServices (q : PeerInfo) : Nat :=
  beUint64 ((hexDecode q.services).getD [])

/-- Well-formedness of a descriptor for `filterPeers`: valid hex decoding to
exactly 8 bytes. -/
def wellFormedServices (q : PeerInfo) : Bool :=
  ((hexDecode q.services).map List.length) == some 8

theorem filterPeers_wellformed (ps : List PeerInfo)
    (hw : ∀ q ∈ ps, wellFormedServices q = true) :
    filterPeers ps = .ok (ps.filter (fun q => eligibleFlags (decodeServices q))) := by
  induction ps with
  | nil => rfl
  | cons q rest ih =>
    have hq : wellFormedServices q = true := hw q (by simp)
    have hrest : ∀ r ∈ rest, wellFormedServices r = true :=
      fun r hr => hw r (by simp [hr])
    unfold wellFormedServices at hq
    cases hdec : hexDecode q.services with
    | none => rw [hdec] at hq; simp at hq
    | some bs =>
      rw [hdec] at hq
      have hq8 : bs.length = 8 := by simpa using hq
      have hlen : ¬ bs.length < 8 := by omega
      rw [show filterPeers (q :: rest)
          = (match hexDecode q.services with
             | none => FilterResult.errored
             | some bs =>
               if bs.length < 8 then FilterResult.panicked
               else
                 let services := beUint64 bs
                 if services &&& requiredServices ≠ requiredServices then
                   filterPeers rest
                 else if services &&& prunedNodeService = prunedNodeService then
                   filterPeers rest
                 else
                   match filterPeers rest with
                   | .ok l => .ok (q :: l)
                   | r => r) from rfl]
      rw [hdec]
      simp only [if_neg hlen]
      have hds : decodeServices q = beUint64 bs := by
        unfold decodeServices
        rw [hdec]
        rfl
      rw [List.filter_cons]
      by_cases hreq : beUint64 bs &&& requiredServices ≠ requiredServices
      · rw [if_pos hreq, ih hrest]
        have helig : eligibleFlags (decodeServices q) = false := by
          rw [hds]
          unfold eligibleFlags
          unfold requiredServices at hreq
          have h9 : ¬ (beUint64 bs &&& 9 = 9) := by
            simpa using hreq
          rw [and_nine_eq] at h9
          have hdisj : (beUint64 bs).testBit 0 = false ∨ (beUint64 bs).testBit 3 = false := by
            by_cases c0 : (beUint64 bs).testBit 0 = true
            · by_cases c3 : (beUint64 bs).testBit 3 = true
              · exact absurd ⟨c0, c3⟩ h9
              · right
                simpa using c3
            · left
              simpa using c0
          rcases hdisj with hc | hc <;> simp [hc]
        rw [helig]
        simp
      · rw [if_neg hreq]
        by_cases hpr : beUint64 bs &&& prunedNodeService = prunedNodeService
        · rw [if_pos hpr, ih hrest]
          have helig : eligibleFlags (decodeServices q) = false := by
            rw [hds]
            unfold eligibleFlags
            unfold prunedNodeService at hpr
            rw [and_pruned_eq] at hpr
            simp [hpr]
          rw [helig]
          simp
        · rw [if_neg hpr, ih hrest]
          have helig : eligibleFlags (decodeServices q) = true := by
            rw [hds]
            unfold eligibleFlags
            unfold requiredServices at hreq
            unfold prunedNodeService at hpr
            have h9 : beUint64 bs &&& 9 = 9 := by
              by_contra hcon
              exact hreq (by simpa using hcon)
            rw [and_nine_eq] at h9
            have h11 : (beUint64 bs).testBit 11 = false := by
              by_cases hb : (beUint64 bs).testBit 11 = true
              · exact absurd ((and_pruned_eq _).mpr hb) hpr
              · simpa using hb
            simp [h9.1, h9.2, h11]
          rw [helig]
          simp

theorem filterPeers_cons (q : PeerInfo) (rest : List PeerInfo) :
    filterPeers (q :: rest) =
      match hexDecode q.services with
      | none => .errored
      | some bs =>
        if bs.length < 8 then .panicked
        else
          if beUint64 bs &&& requiredServices ≠ requiredServices then
            filterPeers rest
          else if beUint64 bs &&& prunedNodeService = prunedNodeService then
            filterPeers rest
          else
            match filterPeers rest with
            | .ok l => .ok (q :: l)
            | r => r := rfl

theorem filterPeers_append (xs ys : List PeerInfo) :
    filterPeers (xs ++ ys) =
      match filterPeers xs with
      | .ok l =>
        match filterPeers ys with
        | .ok l2 => .ok (l ++ l2)
        | r => r
      | r => r := by
  induction xs with
  | nil =>
    show filterPeers ys = _
    rw [show filterPeers ([] : List PeerInfo) = FilterResult.ok [] from rfl]
    cases hys : filterPeers ys <;> simp
  | cons q rest ih =>
    rw [List.cons_append, filterPeers_cons, filterPeers_cons]
    cases hdec : hexDecode q.services with
    | none => rfl
    | some bs =>
      by_cases hlen : bs.length < 8
      · simp only [if_pos hlen]
      · simp only [if_neg hlen]
        by_cases hreq : beUint64 bs &&& requiredServices ≠ requiredServices
        · rw [if_pos hreq, if_pos hreq, ih]
        · rw [if_neg hreq, if_neg hreq]
          by_cases hpr : beUint64 bs &&& prunedNodeService = prunedNodeService
          · rw [if_pos hpr, if_pos hpr, ih]
          · rw [if_neg hpr, if_neg hpr, ih]
            cases hr : filterPeers rest <;> cases hy : filterPeers ys <;> simp

/-! ### Lemmas about the peer pool -/

theorem connectToPeersLoop_le (target : Int) :
    ∀ (cands : List (PeerInfo × ConnOutcome)) (st : DState),
      (st.currentPeers.length : Int) < target →
      ((connectToPeersLoop target st cands).currentPeers.length : Int) ≤ target := by
  intro cands
  induction cands with
  | nil =>
    intro st hst
    exact le_of_lt hst
  | cons c rest ih =>
    intro st hst
    obtain ⟨p, oc⟩ := c
    rw [connectToPeersLoop]
    by_cases hskip : (st.bannedPeers.contains p.addr || hasAddr st.currentPeers p.addr) = true
    · rw [if_pos hskip]
      exact ih st hst
    · rw [if_neg hskip]
      by_cases hnp : oc.newPeerOk = false
      · rw [if_pos hnp]
        exact le_of_lt hst
      · rw [if_neg hnp]
        by_cases hco : oc.connectOk = false
        · rw [if_pos hco]
          exact ih st hst
        · rw [if_neg hco]
          by_cases hso : oc.sendOk = false
          · rw [if_pos hso]
            exact le_of_lt hst
          · rw [if_neg hso]
            have hlen : (st.currentPeers ++ [(p.addr, (⟨false⟩ : Peer))]).length
                = st.currentPeers.length + 1 := by simp
            by_cases htar : ((st.currentPeers ++ [(p.addr, (⟨false⟩ : Peer))]).length : Int) = target
            · rw [if_pos htar]
              simp only
              rw [htar]
            · rw [if_neg htar]
              refine ih _ ?_
              simp only [hlen] at htar ⊢
              push_cast at htar hst ⊢
              omega

theorem banPeer_peers_length (st : DState) (a : Addr) :
    (banPeer st a).currentPeers.length = st.currentPeers.length := by
  simp [banPeer]

theorem disconnectCleanup_peers_length (st : DState) (a : Addr) :
    (disconnectCleanup st a).currentPeers.length ≤ st.currentPeers.length := by
  simpa [disconnectCleanup] using List.length_filter_le _ _

theorem handleResp_peers_length (sanity : Block → Bool) (st : DState)
    (req resp : Message) (peer : Addr) :
    (handleResp sanity st req resp peer).2.1.currentPeers.length
      = st.currentPeers.length := by
  cases resp with
  | blockMsg b =>
    cases req with
    | getDataMsg invs =>
      cases hl : lookupPending st.blocksQueried b.hash with
      | none => simp [handleResp, hl]
      | some chans =>
        by_cases hs : sanity b = true
        · simp [handleResp, hl, hs]
        · have hs' : sanity b = false := by simpa using hs
          simp [handleResp, hl, hs', banPeer]
    | blockMsg c => simp [handleResp]
    | otherMsg t => simp [handleResp]
  | getDataMsg invs => simp [handleResp]
  | otherMsg t => simp [handleResp]

/-! ### Claim theorems -/

/-- C3: for every list of block hashes given to `newRequest`, the number of
emitted getdata requests equals the ceiling of L' divided by
`MaxRequestInvs`, where L' counts the hashes not already pending at the
moment they were processed; every batch holds at most `MaxRequestInvs`
inventory entries, and the entries appear in input order (their
concatenation is exactly the fresh subsequence of the input). -/
theorem newRequest_batch_count (max : Int) (pending : Pending)
    (blocks : List Hash) (ch : Chan) (hm : 1 ≤ max)
    (hM : max ≤ (maxInvPerMsg : Int)) :
    ∃ reqs pending',
      newRequest max pending blocks ch = some (reqs, pending') ∧
      reqs.length =
        ((freshBlocks ch pending blocks).length + max.toNat - 1) / max.toNat ∧
      (∀ r ∈ reqs, r.length ≤ max.toNat) ∧
      reqs.flatten = freshBlocks ch pending blocks ∧
      (freshBlocks ch pending blocks).Sublist blocks := by
  refine ⟨_, _, newRequest_eq max ch pending blocks hm hM, ?_, ?_, ?_, ?_⟩
  · exact chunks_length (by omega) _
  · intro r hr
    exact (chunks_sizes (by omega) hr).2
  · exact chunks_flatten _ _
  · exact freshBlocks_sublist ch pending blocks

/-- Witness for C3 (scenario S2 of the specification): five fresh hashes with
`MaxRequestInvs = 2` yield three batches of sizes 2, 2, 1 in input order. -/
theorem newRequest_batch_count_witness :
    (∃ reqs pending',
      newRequest 2 [] [1, 2, 3, 4, 5] 99 = some (reqs, pending') ∧
      reqs.length =
        ((freshBlocks 99 [] [1, 2, 3, 4, 5]).length + (2 : Int).toNat - 1) /
          (2 : Int).toNat ∧
      (∀ r ∈ reqs, r.length ≤ (2 : Int).toNat) ∧
      reqs.flatten = freshBlocks 99 [] [1, 2, 3, 4, 5] ∧
      (freshBlocks 99 [] [1, 2, 3, 4, 5]).Sublist [1, 2, 3, 4, 5]) ∧
    newRequest 2 [] [1, 2, 3, 4, 5] 99
      = some ([[1, 2], [3, 4], [5]],
          [(1, [99]), (2, [99]), (3, [99]), (4, [99]), (5, [99])]) :=
  ⟨newRequest_batch_count 2 [] [1, 2, 3, 4, 5] 99 (by decide) (by decide),
   by decide⟩

/-- C1: a hash requested by two callers before its block arrives gets exactly
one inventory entry across the two calls' emitted batches, both delivery
channels are registered under the hash, and a validated block for it fans out
to both channels. -/
theorem newRequest_dedup_fanout (max : Int) (pending : Pending)
    (xs ys : List Hash) (h : Hash) (cA cB : Chan)
    (hm : 1 ≤ max) (hM : max ≤ (maxInvPerMsg : Int))
    (hnew : hasKey pending h = false) (hx : h ∈ xs) (hy : h ∈ ys) :
    ∃ r1 p1 r2 p2,
      newRequest max pending xs cA = some (r1, p1) ∧
      newRequest max p1 ys cB = some (r2, p2) ∧
      r1.flatten.count h + r2.flatten.count h = 1 ∧
      cA ∈ chansOf p2 h ∧ cB ∈ chansOf p2 h ∧
      (∀ (sanity : Block → Bool) (st : DState) (invs : List Hash) (b : Block)
         (peer : Addr),
        st.blocksQueried = p2 → sanity b = true → b.hash = h →
        ChanEvent.send cA b ∈
          (handleResp sanity st (.getDataMsg invs) (.blockMsg b) peer).2.2 ∧
        ChanEvent.send cB b ∈
          (handleResp sanity st (.getDataMsg invs) (.blockMsg b) peer).2.2) := by
  have e1 := newRequest_eq max cA pending xs hm hM
  have e2 := newRequest_eq max cB (appendAll cA pending xs) ys hm hM
  have hkey1 : hasKey (appendAll cA pending xs) h = true := by
    rw [hasKey_appendAll, hnew]
    simp [hx]
  have hkey2 : hasKey (appendAll cB (appendAll cA pending xs) ys) h = true := by
    rw [hasKey_appendAll, hkey1]
    simp
  have hcA : cA ∈ chansOf (appendAll cB (appendAll cA pending xs) ys) h :=
    mem_chansOf_appendAll_of_mem cB _ ys h cA
      (self_mem_chansOf_appendAll cA pending xs h hx)
  have hcB : cB ∈ chansOf (appendAll cB (appendAll cA pending xs) ys) h :=
    self_mem_chansOf_appendAll cB _ ys h hy
  refine ⟨_, _, _, _, e1, e2, ?_, hcA, hcB, ?_⟩
  · rw [chunks_flatten, chunks_flatten]
    rw [count_freshBlocks_of_new cA xs pending h hnew hx]
    rw [count_freshBlocks_of_hasKey cB ys _ h hkey1]
  · intro sanity st invs b peer hst hsan hbh
    have hlook : lookupPending st.blocksQueried b.hash
        = some (chansOf (appendAll cB (appendAll cA pending xs) ys) h) := by
      rw [hst, hbh]
      exact lookupPending_isSome_of_hasKey hkey2
    have hev : (handleResp sanity st (.getDataMsg invs) (.blockMsg b) peer).2.2
        = (chansOf (appendAll cB (appendAll cA pending xs) ys) h).map
            (fun c => ChanEvent.send c b) := by
      simp [handleResp, hlook, hsan]
    rw [hev]
    exact ⟨List.mem_map.mpr ⟨cA, hcA, rfl⟩, List.mem_map.mpr ⟨cB, hcB, rfl⟩⟩

/-- Witness for C1 (scenario S3): callers with channels 10 and 20 both ask
for hash 1; one inventory entry in total, both channels registered, fan-out
reaches both. -/
theorem newRequest_dedup_fanout_witness :
    ∃ r1 p1 r2 p2,
      newRequest 2 [] [1] 10 = some (r1, p1) ∧
      newRequest 2 p1 [1, 3] 20 = some (r2, p2) ∧
      r1.flatten.count 1 + r2.flatten.count 1 = 1 ∧
      (10 : Chan) ∈ chansOf p2 1 ∧ (20 : Chan) ∈ chansOf p2 1 ∧
      (∀ (sanity : Block → Bool) (st : DState) (invs : List Hash) (b : Block)
         (peer : Addr),
        st.blocksQueried = p2 → sanity b = true → b.hash = 1 →
        ChanEvent.send 10 b ∈
          (handleResp sanity st (.getDataMsg invs) (.blockMsg b) peer).2.2 ∧
        ChanEvent.send 20 b ∈
          (handleResp sanity st (.getDataMsg invs) (.blockMsg b) peer).2.2) :=
  newRequest_dedup_fanout 2 [] [1] [1, 3] 1 10 20 (by decide) (by decide)
    (by decide) (by decide) (by decide)

/-- C5: a pending, sanity-valid block reply removes its hash from the pending
map and yields `{Progressed: true, Finished: F}` where `F` is true iff no
other hash of the originating getdata inventory list is still pending at
that moment; the captured channels each receive one send of the block. -/
theorem handleResp_valid_progress (sanity : Block → Bool) (st : DState)
    (invs : List Hash) (b : Block) (peer : Addr) (chans : List Chan)
    (hs : sanity b = true)
    (hl : lookupPending st.blocksQueried b.hash = some chans) :
    handleResp sanity st (.getDataMsg invs) (.blockMsg b) peer =
      (⟨true, invs.all
          (fun x => (lookupPending (erasePending st.blocksQueried b.hash) x).isNone)⟩,
       { st with blocksQueried := erasePending st.blocksQueried b.hash },
       chans.map (fun c => ChanEvent.send c b)) ∧
    hasKey (erasePending st.blocksQueried b.hash) b.hash = false ∧
    (invs.all
        (fun x => (lookupPending (erasePending st.blocksQueried b.hash) x).isNone)
          = true ↔
      ∀ x ∈ invs, x ≠ b.hash →
        hasKey (erasePending st.blocksQueried b.hash) x = false) := by
  refine ⟨by simp [handleResp, hl, hs], ?_, ?_⟩
  · unfold hasKey
    rw [lookupPending_erase_self]
    rfl
  · rw [List.all_eq_true]
    constructor
    · intro hall x hx _
      have := hall x hx
      unfold hasKey
      cases hc : lookupPending (erasePending st.blocksQueried b.hash) x with
      | none => rfl
      | some cs =>
        rw [hc] at this
        simp at this
    · intro hother x hx
      by_cases hxb : x = b.hash
      · subst hxb
        rw [lookupPending_erase_self]
        rfl
      · have := hother x hx hxb
        unfold hasKey at this
        cases hc : lookupPending (erasePending st.blocksQueried b.hash) x with
        | none => rfl
        | some cs =>
          rw [hc] at this
          simp at this

/-- Witness for C5: a valid block for pending hash 1 while hash 2 of the same
request is still pending yields `{Progressed: true, Finished: false}`. -/
theorem handleResp_valid_progress_witness :
    (handleResp (fun _ => true)
        { blocksQueried := [(1, [5]), (2, [6])], currentPeers := [],
          bannedPeers := [] }
        (.getDataMsg [1, 2]) (.blockMsg ⟨1⟩) "p" =
      (⟨true, [1, 2].all
          (fun x => (lookupPending (erasePending [(1, [5]), (2, [6])] 1) x).isNone)⟩,
       { blocksQueried := erasePending [(1, [5]), (2, [6])] 1, currentPeers := [],
         bannedPeers := [] },
       [5].map (fun c => ChanEvent.send c ⟨1⟩)) ∧
     hasKey (erasePending [(1, [5]), (2, [6])] 1) 1 = false ∧
     ([1, 2].all
         (fun x => (lookupPending (erasePending [(1, [5]), (2, [6])] 1) x).isNone)
           = true ↔
       ∀ x ∈ [1, 2], x ≠ (1 : Hash) →
         hasKey (erasePending [(1, [5]), (2, [6])] 1) x = false)) ∧
    (handleResp (fun _ => true)
        { blocksQueried := [(1, [5]), (2, [6])], currentPeers := [],
          bannedPeers := [] }
        (.getDataMsg [1, 2]) (.blockMsg ⟨1⟩) "p").1
      = ⟨true, false⟩ :=
  ⟨handleResp_valid_progress (fun _ => true)
      { blocksQueried := [(1, [5]), (2, [6])], currentPeers := [],
        bannedPeers := [] }
      [1, 2] ⟨1⟩ "p" [5] rfl rfl,
   by decide⟩

/-- C6: a non-block response, a non-getdata request, or a block whose hash is
not pending make `handleResp` return `{Progressed: false, Finished: false}`
with the dispatcher state untouched and no channel effects. -/
theorem handleResp_ignore_cases (sanity : Block → Bool) (st : DState)
    (peer : Addr) :
    (∀ (req resp : Message), (∀ b, resp ≠ .blockMsg b) →
      handleResp sanity st req resp peer = (⟨false, false⟩, st, [])) ∧
    (∀ (req : Message) (b : Block), (∀ invs, req ≠ .getDataMsg invs) →
      handleResp sanity st req (.blockMsg b) peer = (⟨false, false⟩, st, [])) ∧
    (∀ (invs : List Hash) (b : Block),
      lookupPending st.blocksQueried b.hash = none →
      handleResp sanity st (.getDataMsg invs) (.blockMsg b) peer
        = (⟨false, false⟩, st, [])) := by
  refine ⟨?_, ?_, ?_⟩
  · intro req resp hresp
    cases resp with
    | blockMsg b => exact absurd rfl (hresp b)
    | getDataMsg invs => rfl
    | otherMsg t => rfl
  · intro req b hreq
    cases req with
    | getDataMsg invs => exact absurd rfl (hreq invs)
    | blockMsg c => rfl
    | otherMsg t => rfl
  · intro invs b hl
    simp [handleResp, hl]

/-- Witness for C6: the three ignore cases at concrete inputs. -/
theorem handleResp_ignore_cases_witness :
    handleResp (fun _ => true) initDState (.getDataMsg [1]) (.otherMsg 0) "x"
      = (⟨false, false⟩, initDState, []) ∧
    handleResp (fun _ => true) initDState (.blockMsg ⟨7⟩) (.blockMsg ⟨1⟩) "x"
      = (⟨false, false⟩, initDState, []) ∧
    handleResp (fun _ => true) initDState (.getDataMsg [1]) (.blockMsg ⟨1⟩) "x"
      = (⟨false, false⟩, initDState, []) :=
  ⟨(handleResp_ignore_cases (fun _ => true) initDState "x").1
      (.getDataMsg [1]) (.otherMsg 0) (by intro b; simp),
   (handleResp_ignore_cases (fun _ => true) initDState "x").2.1
      (.blockMsg ⟨7⟩) ⟨1⟩ (by intro invs; simp),
   (handleResp_ignore_cases (fun _ => true) initDState "x").2.2 [1] ⟨1⟩ rfl⟩

/-- Counterexample for C2: a peer returning an invalid pending block is banned
and gets `{false, false}`, but its address is STILL a key of `currentPeers`
when `handleResp` returns — `banPeer` only calls `Disconnect()`; the deletion
from `currentPeers` runs later in the `signalUponDisconnect` goroutine. -/
theorem handleResp_invalid_still_connected :
    handleResp (fun _ => false)
        { blocksQueried := [(1, [5])], currentPeers := [("p", ⟨false⟩)],
          bannedPeers := [] }
        (.getDataMsg [1]) (.blockMsg ⟨1⟩) "p"
      = (⟨false, false⟩,
         { blocksQueried := [(1, [5])], currentPeers := [("p", ⟨true⟩)],
           bannedPeers := ["p"] },
         []) ∧
    "p" ∈ (handleResp (fun _ => false)
        { blocksQueried := [(1, [5])], currentPeers := [("p", ⟨false⟩)],
          bannedPeers := [] }
        (.getDataMsg [1]) (.blockMsg ⟨1⟩) "p").2.1.currentPeers.map Prod.fst := by
  decide

/-- C2 (amended): when a pending block fails sanity validation, `handleResp`
returns `{Progressed: false, Finished: false}`, the peer's address lands in
the banned set and its connected handle (if any) is disconnected; the address
leaves the connected map only when the subsequent disconnect cleanup runs,
whose keys `banPeer` itself leaves unchanged. -/
theorem handleResp_invalid_bans (sanity : Block → Bool) (st : DState)
    (invs : List Hash) (b : Block) (peer : Addr) (chans : List Chan)
    (hs : sanity b = false)
    (hl : lookupPending st.blocksQueried b.hash = some chans) :
    handleResp sanity st (.getDataMsg invs) (.blockMsg b) peer
      = (⟨false, false⟩, banPeer st peer, []) ∧
    peer ∈ (banPeer st peer).bannedPeers ∧
    (∀ q : Peer, (peer, q) ∈ (banPeer st peer).currentPeers →
      q.disconnected = true) ∧
    (∀ q : Peer, (peer, q) ∉ (disconnectCleanup (banPeer st peer) peer).currentPeers) ∧
    (banPeer st peer).currentPeers.map Prod.fst
      = st.currentPeers.map Prod.fst := by
  refine ⟨by simp [handleResp, hl, hs], ?_, ?_, ?_, ?_⟩
  · simp only [banPeer]
    by_cases hmem : peer ∈ st.bannedPeers
    · rw [if_pos hmem]
      exact hmem
    · rw [if_neg hmem]
      simp
  · intro q hq
    simp only [banPeer] at hq
    rcases List.mem_map.mp hq with ⟨ap, hap, hfap⟩
    by_cases heq : ap.1 = peer
    · rw [if_pos heq] at hfap
      have : q = (⟨true⟩ : Peer) := (Prod.mk.injEq _ _ _ _ ▸ hfap).2.symm
      rw [this]
    · rw [if_neg heq] at hfap
      exact absurd (by rw [hfap]) heq
  · intro q hq
    simp only [disconnectCleanup] at hq
    rcases List.mem_filter.mp hq with ⟨-, hcond⟩
    simp at hcond
  · simp only [banPeer, List.map_map]
    refine List.map_congr_left (fun ap _ => ?_)
    by_cases heq : ap.1 = peer
    · simp [heq]
    · simp [heq]

/-- Witness for C2 (amended): concrete invalid block from connected peer
`"q"`; banned, disconnected, and removed only by the cleanup. -/
theorem handleResp_invalid_bans_witness :
    handleResp (fun _ => false)
        { blocksQueried := [(2, [7])], currentPeers := [("q", ⟨false⟩)],
          bannedPeers := [] }
        (.getDataMsg [2]) (.blockMsg ⟨2⟩) "q"
      = (⟨false, false⟩,
         banPeer
           { blocksQueried := [(2, [7])], currentPeers := [("q", ⟨false⟩)],
             bannedPeers := [] } "q",
         []) ∧
    "q" ∈ (banPeer
        { blocksQueried := [(2, [7])], currentPeers := [("q", ⟨false⟩)],
          bannedPeers := [] } "q").bannedPeers ∧
    (∀ q : Peer, ("q", q) ∈ (banPeer
        { blocksQueried := [(2, [7])], currentPeers := [("q", ⟨false⟩)],
          bannedPeers := [] } "q").currentPeers → q.disconnected = true) ∧
    (∀ q : Peer, ("q", q) ∉ (disconnectCleanup (banPeer
        { blocksQueried := [(2, [7])], currentPeers := [("q", ⟨false⟩)],
          bannedPeers := [] } "q") "q").currentPeers) ∧
    (banPeer
        { blocksQueried := [(2, [7])], currentPeers := [("q", ⟨false⟩)],
          bannedPeers := [] } "q").currentPeers.map Prod.fst
      = [("q", (⟨false⟩ : Peer))].map Prod.fst :=
  handleResp_invalid_bans (fun _ => false)
    { blocksQueried := [(2, [7])], currentPeers := [("q", ⟨false⟩)],
      bannedPeers := [] }
    [2] ⟨2⟩ "q" [7] rfl rfl

/-- C9: the response path never closes a delivery channel: every channel
effect emitted by `handleResp` — including the one that delivers the final
requested block of a getdata request — is a send, never a close. -/
theorem handleResp_no_close (sanity : Block → Bool) (st : DState)
    (req resp : Message) (peer : Addr) :
    ((handleResp sanity st req resp peer).2.2.all ChanEvent.isSend) = true := by
  cases resp with
  | blockMsg b =>
    cases req with
    | getDataMsg invs =>
      cases hl : lookupPending st.blocksQueried b.hash with
      | none => simp [handleResp, hl]
      | some chans =>
        by_cases hs : sanity b = true
        · simp [handleResp, hl, hs, ChanEvent.isSend]
        · have hs' : sanity b = false := by simpa using hs
          simp [handleResp, hl, hs']
    | blockMsg c => rfl
    | otherMsg t => rfl
  | getDataMsg invs => rfl
  | otherMsg t => rfl

/-- C4: on descriptors whose service field is well-formed 8-byte hex,
`filterPeers` keeps exactly those whose decoded flags have the NODE_NETWORK
(bit 0) and NODE_WITNESS (bit 3) bits set and the NODE_PRUNED bit (bit 11)
clear. -/
theorem filterPeers_eligibility (ps : List PeerInfo)
    (hw : ∀ q ∈ ps, wellFormedServices q = true) :
    filterPeers ps = .ok (ps.filter (fun q => eligibleFlags (decodeServices q))) ∧
    (∀ q, q ∈ ps.filter (fun q => eligibleFlags (decodeServices q)) ↔
      q ∈ ps ∧ (decodeServices q).testBit 0 = true ∧
        (decodeServices q).testBit 3 = true ∧
        (decodeServices q).testBit 11 = false) := by
  refine ⟨filterPeers_wellformed ps hw, fun q => ?_⟩
  rw [List.mem_filter]
  unfold eligibleFlags
  constructor
  · rintro ⟨hq, he⟩
    simp only [Bool.and_eq_true, Bool.not_eq_true'] at he
    exact ⟨hq, he.1.1, he.1.2, he.2⟩
  · rintro ⟨hq, h0, h3, h11⟩
    refine ⟨hq, ?_⟩
    simp [h0, h3, h11]

/-- Witness for C4 (scenario S1): of the flag values 0x0409, 0x0001, 0x0801
and 0x0c09, only the first descriptor is eligible. -/
theorem filterPeers_eligibility_witness :
    filterPeers [⟨"a", "0000000000000409"⟩, ⟨"b", "0000000000000001"⟩,
        ⟨"c", "0000000000000801"⟩, ⟨"d", "0000000000000c09"⟩]
      = .ok ([⟨"a", "0000000000000409"⟩, ⟨"b", "0000000000000001"⟩,
          ⟨"c", "0000000000000801"⟩, ⟨"d", "0000000000000c09"⟩].filter
            (fun q => eligibleFlags (decodeServices q))) ∧
    [⟨"a", "0000000000000409"⟩, ⟨"b", "0000000000000001"⟩,
        ⟨"c", "0000000000000801"⟩, ⟨"d", "0000000000000c09"⟩].filter
          (fun q => eligibleFlags (decodeServices q))
      = [⟨"a", "0000000000000409"⟩] :=
  ⟨(filterPeers_eligibility
      [⟨"a", "0000000000000409"⟩, ⟨"b", "0000000000000001"⟩,
       ⟨"c", "0000000000000801"⟩, ⟨"d", "0000000000000c09"⟩] (by decide)).1,
   by decide⟩

/-- C10: `filterPeers` is only total on well-formed descriptors: a valid hex
services field shorter than 8 bytes panics the big-endian read, and an
invalid hex field makes `filterPeers` error, which aborts the whole
connection pass in `connectToPeers` instead of skipping the candidate. -/
theorem filterPeers_partiality :
    (∀ (pre : List PeerInfo) (p : PeerInfo) (rest l : List PeerInfo)
       (bs : List Nat),
      filterPeers pre = .ok l → hexDecode p.services = some bs →
      bs.length < 8 → filterPeers (pre ++ p :: rest) = .panicked) ∧
    (∀ (pre : List PeerInfo) (p : PeerInfo) (rest l : List PeerInfo),
      filterPeers pre = .ok l → hexDecode p.services = none →
      filterPeers (pre ++ p :: rest) = .errored ∧
      (∀ (target : Int) (st : DState) (outcome : PeerInfo → ConnOutcome)
         (shuffle : List PeerInfo → List PeerInfo),
        connectToPeersFull target st (pre ++ p :: rest) outcome shuffle
          = .errored)) := by
  constructor
  · intro pre p rest l bs hpre hdec hlen
    simp [filterPeers_append, hpre, filterPeers_cons, hdec, hlen]
  · intro pre p rest l hpre hdec
    have herr : filterPeers (pre ++ p :: rest) = .errored := by
      simp [filterPeers_append, hpre, filterPeers_cons, hdec]
    refine ⟨herr, fun target st outcome shuffle => ?_⟩
    unfold connectToPeersFull
    rw [herr]

/-- Witness for C10: a 1-byte hex services field panics; a non-hex services
field errors the filter and the whole pass. -/
theorem filterPeers_partiality_witness :
    filterPeers ([⟨"a", "0000000000000409"⟩] ++ ⟨"s", "00"⟩ :: [])
      = .panicked ∧
    filterPeers ([⟨"a", "0000000000000409"⟩] ++ ⟨"z", "zz"⟩ :: [])
      = .errored ∧
    connectToPeersFull 1 initDState
        ([⟨"a", "0000000000000409"⟩] ++ ⟨"z", "zz"⟩ :: [])
        (fun _ => ⟨true, true, true⟩) id
      = .errored :=
  ⟨filterPeers_partiality.1 [⟨"a", "0000000000000409"⟩] ⟨"s", "00"⟩ []
      [⟨"a", "0000000000000409"⟩] [0] (by decide) (by decide) (by decide),
   (filterPeers_partiality.2 [⟨"a", "0000000000000409"⟩] ⟨"z", "zz"⟩ []
      [⟨"a", "0000000000000409"⟩] (by decide) (by decide)).1,
   (filterPeers_partiality.2 [⟨"a", "0000000000000409"⟩] ⟨"z", "zz"⟩ []
      [⟨"a", "0000000000000409"⟩] (by decide) (by decide)).2
     1 initDState (fun _ => ⟨true, true, true⟩) id⟩

/-- C7: in every reachable dispatcher state the connected-peer count never
exceeds `NumTargetPeers`: passes only run below target, add one peer at a
time and stop at the target; all other operations never grow the map. -/
theorem connected_le_target (target : Int) (st : DState)
    (ht : 1 ≤ target) (hr : PoolReachable target st) :
    (st.currentPeers.length : Int) ≤ target := by
  induction hr with
  | init =>
    have h0 : ((0 : Nat) : Int) ≤ target := by omega
    exact h0
  | pass s cands hs hlt ih =>
    exact connectToPeersLoop_le target cands s hlt
  | disconnect s a hs ih =>
    have hle : ((disconnectCleanup s a).currentPeers.length : Int)
        ≤ (s.currentPeers.length : Int) := by
      exact_mod_cast disconnectCleanup_peers_length s a
    exact le_trans hle ih
  | ban s a hs ih =>
    rw [banPeer_peers_length]
    exact ih
  | query s max blocks ch reqs p' hs hq ih =>
    exact ih
  | resp s sanity req rsp peer hs ih =>
    rw [handleResp_peers_length]
    exact ih

/-- Witness for C7: a pass from the empty initial state with two candidates
and target 1 connects one peer and stops at the target. -/
theorem connected_le_target_witness :
    ((connectToPeersLoop 1 initDState
        [(⟨"a", "0000000000000409"⟩, ⟨true, true, true⟩),
         (⟨"b", "0000000000000409"⟩, ⟨true, true, true⟩)]).currentPeers.length
      : Int) ≤ 1 :=
  connected_le_target 1 _ (by decide)
    (PoolReachable.pass initDState
      [(⟨"a", "0000000000000409"⟩, ⟨true, true, true⟩),
       (⟨"b", "0000000000000409"⟩, ⟨true, true, true⟩)]
      PoolReachable.init (by decide))

/-- C8: `NewPrunedBlockDispatcher` fails exactly when `NumTargetPeers < 1` or
`MaxRequestInvs > MaxInvPerMsg`; otherwise it returns the fully constructed
initial state (pure construction, no dialing and no `GetPeers` call). -/
theorem newDispatcher_validation (cfg : Config) :
    ((∃ st, NewPrunedBlockDispatcher cfg = .ok st) ↔
      (1 ≤ cfg.numTargetPeers ∧ cfg.maxRequestInvs ≤ (maxInvPerMsg : Int))) ∧
    (1 ≤ cfg.numTargetPeers → cfg.maxRequestInvs ≤ (maxInvPerMsg : Int) →
      NewPrunedBlockDispatcher cfg = .ok initDState) ∧
    (cfg.numTargetPeers < 1 ∨ (maxInvPerMsg : Int) < cfg.maxRequestInvs →
      ∃ e, NewPrunedBlockDispatcher cfg = .error e) := by
  unfold NewPrunedBlockDispatcher
  by_cases h1 : cfg.numTargetPeers < 1
  · rw [if_pos h1]
    refine ⟨⟨?_, ?_⟩, ?_, ?_⟩
    · rintro ⟨st, hst⟩
      cases hst
    · rintro ⟨ha, -⟩
      exact absurd h1 (by omega)
    · intro ha hb
      exact absurd h1 (by omega)
    · intro hc
      exact ⟨_, rfl⟩
  · rw [if_neg h1]
    by_cases h2 : cfg.maxRequestInvs > (maxInvPerMsg : Int)
    · rw [if_pos h2]
      refine ⟨⟨?_, ?_⟩, ?_, ?_⟩
      · rintro ⟨st, hst⟩
        cases hst
      · rintro ⟨-, hb⟩
        exact absurd h2 (not_lt.mpr hb)
      · intro ha hb
        exact absurd h2 (not_lt.mpr hb)
      · intro hc
        exact ⟨_, rfl⟩
    · rw [if_neg h2]
      refine ⟨⟨?_, ?_⟩, ?_, ?_⟩
      · intro hex
        exact ⟨not_lt.mp h1, not_lt.mp h2⟩
      · intro hco
        exact ⟨initDState, rfl⟩
      · intro ha hb
        rfl
      · intro hc
        rcases hc with hc | hc
        · exact absurd hc h1
        · exact absurd hc h2

/-- Witness for C8: a valid configuration yields the initial state; both
invalid configurations yield errors. -/
theorem newDispatcher_validation_witness :
    NewPrunedBlockDispatcher ⟨3, 500⟩ = .ok initDState ∧
    (∃ e, NewPrunedBlockDispatcher ⟨0, 500⟩ = .error e) ∧
    (∃ e, NewPrunedBlockDispatcher ⟨3, 50001⟩ = .error e) :=
  ⟨(newDispatcher_validation ⟨3, 500⟩).2.1 (by decide) (by decide),
   (newDispatcher_validation ⟨0, 500⟩).2.2 (Or.inl (by decide)),
   (newDispatcher_validation ⟨3, 50001⟩).2.2 (Or.inr (by decide))⟩
